import Mathlib

/-!
Shallow embedding of the BRAINFROG art-competition contract
(`src/bf_competition/src/lib.rs`) for verifying the claims of its
natural-language specification.

Modelling conventions:
* Soroban `Address` values are opaque identities, modelled as `Nat`;
  Soroban `String` / `Symbol` values are Lean `String`s.
* `u64` / `u32` quantities are `Nat`s.  Rust's *unchecked* arithmetic in a
  release build wraps, so every unchecked multiplication/addition that can
  overflow is modelled with an explicit `% U64` (resp. `% U32`); the
  `checked_*` operations of the source are modelled by explicit range tests
  that produce an error.  `i128` values from the token service are `Int`.
* Soroban `Map` is modelled as an association list with first-match lookup
  (`lookupA`), overwrite-in-place insertion (`setA`) and key removal
  (`removeA`); contract storage and the artist registry are modelled as
  functions from keys to `Option` values.
* External effects are parameters: the ledger timestamp `now`, the token's
  `decimals` answer (an `Option Nat`, `none` = the cross-contract query
  failed), the reported `i128` balance, and a transfer oracle
  `tf : Nat → Bool` giving the success of the n-th attempted transfer.
* A Rust `panic!` / failed `assert!` / `expect` aborts (and reverts) the
  whole invocation; such outcomes are modelled as `none` / `Except.error`.
* Nat division by `0` is `0` in Lean while Rust would trap; the only places
  this could be reached need `decimals ≥ 64` or an empty tie group, neither
  of which occurs in the executions the claims are about.
-/

namespace BFComp

def U64 : Nat := 2 ^ 64

def U32 : Nat := 2 ^ 32

/-- `u64` wrapping subtraction (Rust release semantics for `a - b`). -/
def u64sub (a b : Nat) : Nat := ((a % U64) + U64 - b % U64) % U64

structure ArtworkMetadata where
  artworkName : String
  description : String
  imgUrl : String
deriving DecidableEq

structure Medium where
  name : String
  description : String
deriving DecidableEq

structure Network where
  name : String
  chainId : String
deriving DecidableEq

structure ArtistInfo where
  registered : Bool
  name : String
  bio : String
  imgUrl : String
  website : String
  mediums : List Medium
  blockchains : List Network
  competitionsParticipated : Nat
  competitionsWon : Nat
deriving DecidableEq

/-- The `Competition` record of the contract.  `shareSched` is the field the
source calls `share_ratio` (renamed for the development); descriptive
string fields that no claim observes (`id_description`) are omitted. -/
structure Competition where
  id : String
  token : Nat
  artistAddStart : Nat
  artistAddEnd : Nat
  voteStart : Nat
  voteEnd : Nat
  minVoteTokens : Nat
  artists : List (Nat × String)
  votes : List (String × Nat)
  voteLog : List (Nat × String)
  finalized : Bool
  winner : Option String
  pot : Nat
  artistMetadata : List (String × List ArtworkMetadata)
  shareSched : List Nat
deriving DecidableEq

structure CompetitionStatus where
  id : String
  competition : Competition
  isSubmissionActive : Bool
  isVotingActive : Bool
  isFinalized : Bool
deriving DecidableEq

structure ArtistRanking where
  artist : String
  votes : Nat
  rank : Nat
  isWinner : Bool
deriving DecidableEq

structure VoteRecord where
  voter : Nat
  artist : String
  timestamp : Nat
deriving DecidableEq

structure VotingEligibility where
  canVote : Bool
  hasVoted : Bool
  currentBalance : Nat
  minRequired : Nat
  votingActive : Bool
deriving DecidableEq

/-- One attempted-and-successful prize transfer: recipient address, the
whole-unit amount credited to `total_paid`, and the minor-unit amount that
was actually passed to the token `transfer` call. -/
structure Payment where
  addr : Nat
  lumen : Nat
  stroop : Nat
deriving DecidableEq

abbrev Registry := Nat → Option ArtistInfo

abbrev Store := String → Option Competition

abbrev AllHist := String → List VoteRecord

/-! ## Association-list operations (Soroban `Map`) -/

def lookupA {κ β : Type} [DecidableEq κ] : List (κ × β) → κ → Option β
  | [], _ => none
  | (k0, v0) :: t, k => if k0 = k then some v0 else lookupA t k

def setA {κ β : Type} [DecidableEq κ] : List (κ × β) → κ → β → List (κ × β)
  | [], k, v => [(k, v)]
  | (k0, v0) :: t, k, v => if k0 = k then (k, v) :: t else (k0, v0) :: setA t k v

def removeA {κ β : Type} [DecidableEq κ] (m : List (κ × β)) (k : κ) : List (κ × β) :=
  m.filter (fun kv => decide (¬ kv.1 = k))

def mgetD {κ β : Type} [DecidableEq κ] (m : List (κ × β)) (k : κ) (d : β) : β :=
  (lookupA m k).getD d

/-! ## Ranking: `(name, votes)` pairs and the manual bubble sort

The source sorts with
`for i in 0..len { for j in 0..(len-1-i) { if a[j].1 < a[j+1].1 { swap } } }`.
`bpassN n` is one inner pass: at most `n` adjacent compare-and-swap steps
starting at the head, carrying the smaller element of each pair rightwards.
`bsortAux b` runs the passes with bounds `b, b-1, …, 1`; the source's final
pass has bound `0` and is the identity, so `bubbleSort` runs
`bsortAux (len - 1)`. -/

def artistVotes (comp : Competition) : List (String × Nat) :=
  comp.artists.map (fun an => (an.2, mgetD comp.votes an.2 0))

def bpassN : Nat → List (String × Nat) → List (String × Nat)
  | 0, l => l
  | _ + 1, [] => []
  | _ + 1, [x] => [x]
  | n + 1, x :: y :: rest =>
    if x.2 < y.2 then y :: bpassN n (x :: rest) else x :: bpassN n (y :: rest)

def bsortAux : Nat → List (String × Nat) → List (String × Nat)
  | 0, l => l
  | b + 1, l => bsortAux b (bpassN (b + 1) l)

def bubbleSort (l : List (String × Nat)) : List (String × Nat) :=
  bsortAux (l.length - 1) l

/-- First address in the submission list carrying the given artist name
(the source's `for (addr, name) … { if name == target { …; break } }`). -/
def findAddr : List (Nat × String) → String → Option Nat
  | [], _ => none
  | (a, n) :: t, s => if n = s then some a else findAddr t s

/-- Last address carrying the given name: the `remove_artist` loop keeps
overwriting `artist_address_to_remove` on every match. -/
def lastAddr (artists : List (Nat × String)) (nm : String) : Option Nat :=
  artists.foldl (fun acc an => if an.2 = nm then some an.1 else acc) none

/-! ## Prize distribution (`pay_winners`) -/

/-- `sumShare share r k` is the source's
`for offset in 0..k { if r+offset < share.len { combined += share[r+offset] } }`. -/
def sumShare (share : List Nat) : Nat → Nat → Nat
  | _, 0 => 0
  | r, k + 1 => ((share.get? r).getD 0) + sumShare share (r + 1) k

/-- Group the sorted `(name, votes)` list into runs of equal vote count,
accumulating the current run exactly like the source's
`current_votes` / `current_group` loop. -/
def groupAux : Nat → List String → List (String × Nat) → List (Nat × List String)
  | v, acc, [] => [(v, acc)]
  | v, acc, (a, w) :: rest =>
    if w = v then groupAux v (acc ++ [a]) rest
    else (v, acc) :: groupAux w [a] rest

def groupVotes : List (String × Nat) → List (Nat × List String)
  | [] => []
  | (a, v) :: rest => groupAux v [a] rest

/-- Pay one tie group: every member found in the submission list is paid
`pot * share_per_artist / 100` whole units (unchecked `u64` arithmetic,
hence `% U64`), the minor-unit amount `amt * mult` likewise wraps; a
transfer is attempted only when the minor-unit amount is positive and
`total_paid` is bumped only when the oracle reports success. -/
def payGroup (pot mult s : Nat) (artists : List (Nat × String)) (tf : Nat → Bool) :
    List String → Nat → Nat → List Payment → Nat × Nat × List Payment
  | [], t, att, paid => (t, att, paid)
  | nm :: rest, t, att, paid =>
    match findAddr artists nm with
    | none => payGroup pot mult s artists tf rest t att paid
    | some a =>
      let amt := ((pot * s) % U64) / 100
      let stroop := (amt * mult) % U64
      if 0 < stroop then
        if tf att then
          payGroup pot mult s artists tf rest ((t + amt) % U64) (att + 1)
            (paid ++ [⟨a, amt, stroop⟩])
        else payGroup pot mult s artists tf rest t (att + 1) paid
      else payGroup pot mult s artists tf rest t att paid

/-- The main distribution walk over the tie groups: stops at a zero-vote
group, at a zero combined share, or once the share schedule is exhausted. -/
def primaryLoop (pot mult : Nat) (share : List Nat) (artists : List (Nat × String))
    (tf : Nat → Bool) :
    List (Nat × List String) → Nat → Nat → Nat → List Payment → Nat × Nat × List Payment
  | [], _, t, att, paid => (t, att, paid)
  | (v, group) :: rest, r, t, att, paid =>
    if v = 0 then (t, att, paid)
    else
      let k := group.length
      let combined := sumShare share r k
      if combined = 0 then (t, att, paid)
      else
        let s := combined / k
        let res := payGroup pot mult s artists tf group t att paid
        if share.length ≤ r + k then res
        else primaryLoop pot mult share artists tf rest (r + k) res.1 res.2.1 res.2.2

/-- One iteration of the leftover-redistribution loop (`for i in 0..winners_count`),
with the source's bounds checks reproduced as `Option` matches. -/
def leftoverStep (share : List Nat) (artists : List (Nat × String))
    (leftover tws mult : Nat) (sorted : List (String × Nat)) (tf : Nat → Bool)
    (st : Nat × List Payment) (i : Nat) : Nat × List Payment :=
  match sorted.get? i, share.get? i with
  | some nv, some ashare =>
    if 0 < nv.2 then
      let prop := ((leftover * ashare) % U64) / tws
      if 0 < prop then
        match findAddr artists nv.1 with
        | some a =>
          let stroop := (prop * mult) % U64
          if 0 < stroop then
            (st.1 + 1, if tf st.1 then st.2 ++ [⟨a, prop, stroop⟩] else st.2)
          else st
        | none => st
      else st
    else st
  | _, _ => st

/-- The whole distribution pass of `pay_winners` once the winner is known and
the decimals query has answered `d`: primary tie-group payments, then the
proportional leftover redistribution, then `pot := 0`. -/
def distribute (reg1 : Registry) (comp1 : Competition) (d : Nat) (tf : Nat → Bool) :
    Registry × Competition × List Payment :=
  let mult := (10 ^ d) % U64
  let sorted := bubbleSort (artistVotes comp1)
  let grouped := groupVotes sorted
  let pr := primaryLoop comp1.pot mult comp1.shareSched comp1.artists tf grouped 0 0 0 []
  let leftover := u64sub comp1.pot pr.1
  let paidFinal :=
    if 0 < leftover ∧ 0 < sorted.length then
      let wc := min (sorted.takeWhile (fun p => decide (0 < p.2))).length comp1.shareSched.length
      let tws := sumShare comp1.shareSched 0 wc
      if 0 < tws then
        ((List.range wc).foldl
          (leftoverStep comp1.shareSched comp1.artists leftover tws mult sorted tf)
          (pr.2.1, pr.2.2)).2
      else pr.2.2
    else pr.2.2
  (reg1, { comp1 with pot := 0 }, paidFinal)

/-! ## Finalization -/

/-- Increment `competitions_won` for the address, if it is registered
(`u32` addition, hence `% U32`). -/
def bumpWin (reg : Registry) (a : Nat) : Registry :=
  match reg a with
  | some info =>
    fun x =>
      if x = a then some { info with competitionsWon := (info.competitionsWon + 1) % U32 }
      else reg x
  | none => reg

def internalFinalize (reg : Registry) (comp : Competition) : Registry × Competition :=
  if comp.artists.length = 0 then (reg, { comp with finalized := true, winner := none })
  else
    match bubbleSort (artistVotes comp) with
    | [] => (reg, { comp with winner := none, finalized := true })
    | (n, v) :: _ =>
      if 0 < v then
        let reg1 :=
          match findAddr comp.artists n with
          | some a => bumpWin reg a
          | none => reg
        (reg1, { comp with winner := some n, finalized := true })
      else (reg, { comp with winner := none, finalized := true })

/-- `pay_winners`: asserts the voting window is over (a violated assert
aborts, `none`), finalizes if needed, then runs the distribution pass unless
the pot is empty, there is no winner, or the decimals query fails.  The
returned `Competition` is the stored state when the call returns. -/
def payWinners (reg : Registry) (comp : Competition) (now : Nat) (decRes : Option Nat)
    (tf : Nat → Bool) : Option (Registry × Competition × List Payment) :=
  if comp.voteEnd < now then
    let fr := if comp.finalized then (reg, comp) else internalFinalize reg comp
    if fr.2.pot = 0 ∨ fr.2.winner = none then some (fr.1, fr.2, [])
    else
      match decRes with
      | none => some (fr.1, fr.2, [])
      | some d => some (distribute fr.1 fr.2 d tf)
  else none

/-! ## `get_winner` rankings -/

def mkRankings : Nat → List (String × Nat) → List ArtistRanking
  | _, [] => []
  | i, (a, v) :: t =>
    { artist := a, votes := v, rank := (i + 1) % U32,
      isWinner := decide (i = 0 ∧ 0 < v) } :: mkRankings (i + 1) t

def getWinner (comp : Competition) : List ArtistRanking :=
  mkRankings 0 (bubbleSort (artistVotes comp))

/-! ## Eligibility and voting -/

/-- `check_voting_eligibility`: the reported `i128` balance is cast to `u64`
(`as u64`, i.e. reduced mod `2^64`) before the whole-unit division. -/
def checkVotingEligibility (comp : Competition) (now : Nat) (decimals : Nat)
    (balanceStroop : Int) (voter : Nat) : VotingEligibility :=
  let votingActive := decide (comp.voteStart ≤ now ∧ now ≤ comp.voteEnd)
  let mult := (10 ^ decimals) % U64
  let balU64 := (balanceStroop % (U64 : Int)).toNat
  let currentBalance := balU64 / mult
  let minRequired := comp.minVoteTokens
  let hasVoted := (lookupA comp.voteLog voter).isSome
  let canVote := votingActive && decide (minRequired ≤ currentBalance) && !hasVoted
  ⟨canVote, hasVoted, currentBalance, minRequired, votingActive⟩

inductive VoteEvent where
  | auth : VoteEvent
  | extCall : String → VoteEvent
  | voteLogWrite : VoteEvent
  | storageWrite : String → VoteEvent
deriving DecidableEq

def isExtCall : VoteEvent → Bool
  | VoteEvent.extCall _ => true
  | _ => false

/-- `true` iff some external token-service call happens strictly before the
vote-log write in the event trace. -/
def extBeforeLog (tr : List VoteEvent) : Bool :=
  (tr.takeWhile (fun e => !decide (e = VoteEvent.voteLogWrite))).any isExtCall

/-- `vote`, as the pair (event trace, outcome).  The trace records the
authorization check, the two token-service invocations made inside
`check_voting_eligibility`, the in-memory `vote_log.set`, and the storage
writes; `none` is an aborted (panicking) call, whose trace still lists the
events that happened before the abort. -/
def voteExec (comp : Competition) (compHist : List VoteRecord) (voter : Nat)
    (artist : String) (now : Nat) (decimals : Nat) (balance : Int) :
    List VoteEvent × Option (Competition × List VoteRecord) :=
  let elig := checkVotingEligibility comp now decimals balance voter
  let ev1 := [VoteEvent.auth, VoteEvent.extCall "decimals", VoteEvent.extCall "balance"]
  if !elig.canVote then (ev1, none)
  else if elig.hasVoted then (ev1, none)
  else if !(comp.artists.any (fun an => decide (an.2 = artist))) then (ev1, none)
  else
    let comp1 := { comp with
      voteLog := setA comp.voteLog voter artist,
      votes := setA comp.votes artist ((mgetD comp.votes artist 0 + 1) % U64) }
    let hist1 := compHist ++ [⟨voter, artist, now⟩]
    (ev1 ++ [VoteEvent.voteLogWrite, VoteEvent.storageWrite "vote_hist",
      VoteEvent.storageWrite comp.id],
     some (comp1, hist1))

/-! ## `fund_pot`, `delete_competition`, `remove_artist` -/

/-- `fund_pot`: checked power / multiplication / addition, failing with the
source's `expect` messages; the final transfer is an infallible
cross-contract call whose failure aborts the whole call. -/
def fundPot (comp : Competition) (amount : Nat) (decimals : Nat) (tfOk : Bool) :
    Except String Competition :=
  if U64 ≤ 10 ^ decimals then Except.error "Overflow in decimals"
  else
    let mult := 10 ^ decimals
    if U64 ≤ amount * mult then Except.error "Overflow in fund_pot"
    else if U64 ≤ comp.pot + amount then Except.error "Overflow in pot"
    else
      match tfOk with
      | true => Except.ok { comp with pot := comp.pot + amount }
      | false => Except.error "transfer failed"

def storeSet (store : Store) (id : String) (c : Competition) : Store :=
  fun x => if x = id then some c else store x

def storeRemove (store : Store) (id : String) : Store :=
  fun x => if x = id then none else store x

/-- `delete_competition`: removes the competition, then emergency-refunds a
non-empty pot with checked conversion to minor units; returns the new
storage, the filtered competition list, the vote-history map with the
competition's log dropped, and the refunded minor-unit amount. -/
def deleteCompetition (store : Store) (compList : List String) (allHist : AllHist)
    (id : String) (isAdmin : Bool) (decimals : Nat) (tfOk : Bool) :
    Except String (Store × List String × AllHist × Nat) :=
  match store id with
  | none => Except.error "competition not found"
  | some comp =>
    match isAdmin with
    | false => Except.error "Only admins can delete"
    | true =>
      let store1 := storeRemove store id
      let list1 := compList.filter (fun cid => decide (¬ cid = id))
      let hist1 : AllHist := fun x => if x = id then [] else allHist x
      if 0 < comp.pot then
        if U64 ≤ 10 ^ decimals then Except.error "Overflow in decimals"
        else if U64 ≤ comp.pot * 10 ^ decimals then Except.error "Overflow in pot transfer"
        else
          match tfOk with
          | true => Except.ok (store1, list1, hist1, comp.pot * 10 ^ decimals)
          | false => Except.error "transfer failed"
      else Except.ok (store1, list1, hist1, 0)

/-- `remove_artist`: drops the named artist's submission, metadata and tally,
purges their votes from the history, clears those voters' vote-log entries,
and removes the artist's address from the global registry. -/
def removeArtist (id : String) (comp : Competition) (reg : Registry) (allHist : AllHist)
    (isAdmin : Bool) (artistName : String) :
    Option (Competition × Registry × AllHist) :=
  match isAdmin with
  | false => none
  | true =>
    let newArtists := comp.artists.filter (fun an => decide (¬ an.2 = artistName))
    let addrToRemove := lastAddr comp.artists artistName
    match comp.artists.any (fun an => decide (an.2 = artistName)) with
    | false => none
    | true =>
      let compHist := allHist id
      let newHist := compHist.filter (fun r => decide (¬ r.artist = artistName))
      let votersToClear := (compHist.filter (fun r => decide (r.artist = artistName))).map
        (fun r => r.voter)
      let comp1 := { comp with
        artists := newArtists,
        artistMetadata := removeA comp.artistMetadata artistName,
        votes := removeA comp.votes artistName,
        voteLog := votersToClear.foldl (fun vl v => removeA vl v) comp.voteLog }
      let allHist1 : AllHist := fun x => if x = id then newHist else allHist x
      let reg1 :=
        match addrToRemove with
        | some a => fun x => if x = a then none else reg x
        | none => reg
      some (comp1, reg1, allHist1)

/-! ## Status reads -/

/-- `get_competition` is a pure storage read: it never writes anything back. -/
def getCompetition (store : Store) (id : String) : Option Competition :=
  store id

/-- One iteration of `get_active_competitions`: auto-finalize an unfinalized
competition whose voting window has elapsed, write it back, and append its
status when it is still "active" (submission, voting, or within a day after
voting). -/
def getActiveStep (now : Nat) (st : Store × Registry × List CompetitionStatus)
    (id : String) : Store × Registry × List CompetitionStatus :=
  match st.1 id with
  | none => st
  | some comp0 =>
    let p :=
      if comp0.finalized = false ∧ comp0.voteEnd < now then
        let fc := internalFinalize st.2.1 comp0
        (storeSet st.1 id fc.2, fc.1, fc.2)
      else (st.1, st.2.1, comp0)
    let comp := p.2.2
    let subAct := decide (comp.artistAddStart ≤ now ∧ now ≤ comp.artistAddEnd)
    let votAct := decide (comp.voteStart ≤ now ∧ now ≤ comp.voteEnd)
    let acc :=
      if subAct || votAct || decide (now ≤ comp.voteEnd + 86400) then
        st.2.2 ++ [⟨id, comp, subAct, votAct, comp.finalized⟩]
      else st.2.2
    (p.1, p.2.1, acc)

def getActiveCompetitions (store : Store) (reg : Registry) (ids : List String)
    (now : Nat) : Store × Registry × List CompetitionStatus :=
  ids.foldl (getActiveStep now) (store, reg, [])

/-! ## Invariants for the bubble-sort verification -/

/-- Every element of the first `k` positions dominates (has at least the
vote count of) every element from position `k` on. -/
def DominatesAt (k : Nat) (l : List (String × Nat)) : Prop :=
  ∀ x ∈ l.take k, ∀ y ∈ l.drop k, y.2 ≤ x.2

/-- The suffix from position `k` on is already in final (descending) order
and dominated by the unsettled prefix. -/
def TailSettled (k : Nat) (l : List (String × Nat)) : Prop :=
  List.Sorted (fun a b : String × Nat => b.2 ≤ a.2) (l.drop k) ∧ DominatesAt k l

/-! ## Concrete instances used by witnesses and counterexamples -/

def regEmpty : Registry := fun _ => none

/-- A fresh competition with the creation-time defaults relevant here
(`share_ratio = [50,30,20]`, `finalized = false`, empty logs). -/
def baseComp (artists : List (Nat × String)) (votes : List (String × Nat))
    (pot : Nat) : Competition :=
  { id := "c", token := 0, artistAddStart := 0, artistAddEnd := 1,
    voteStart := 2, voteEnd := 10, minVoteTokens := 1,
    artists := artists, votes := votes, voteLog := [],
    finalized := false, winner := none, pot := pot,
    artistMetadata := [], shareSched := [50, 30, 20] }

def c2comp : Competition := baseComp [(1, "A"), (2, "B"), (3, "C")]
  [("A", 3), ("B", 3), ("C", 1)] 100

def c1res : Registry × Competition × List Payment :=
  (regEmpty, { c2comp with finalized := true, winner := some "A", pot := 0 },
   [⟨1, 40, 40⟩, ⟨2, 40, 40⟩, ⟨3, 20, 20⟩])

def c3comp : Competition :=
  { baseComp [(1, "A")] [("A", 1)] 100 with finalized := true, winner := some "A" }

def c3wComp : Competition :=
  { baseComp [(1, "A")] [("A", 1)] 100 with finalized := true, winner := some "A" }

def c3wRes : Registry × Competition × List Payment :=
  (regEmpty, { c3wComp with pot := 0 }, [⟨1, 50, 50⟩, ⟨1, 50, 50⟩])

def c4comp : Competition := baseComp [(1, "A")] [("A", 1)] 4000000000000

def c5comp : Competition := baseComp [(1, "A")] [] 0

def c6comp : Competition := baseComp [(1, "A")] [("A", 1)] 0

def c6store : Store := fun x => if x = "c" then some c6comp else none

def c7comp : Competition := baseComp [(1, "A"), (2, "B")] [("A", 3), ("B", 1)] 0

def c6compU : Competition := baseComp [(1, "A")] [("A", 1)] 0

def c6store2 : Store := fun x => if x = "ca" then some c6compU else none

def c6after : Competition := { c6compU with finalized := true, winner := some "A" }

def c8info : ArtistInfo :=
  { registered := true, name := "A", bio := "", imgUrl := "", website := "",
    mediums := [], blockchains := [], competitionsParticipated := 0,
    competitionsWon := 4 }

def c8reg : Registry := fun x => if x = 1 then some c8info else none

def c8comp : Competition := baseComp [(1, "A")] [("A", 2)] 0

def c9comp : Competition := baseComp [(1, "A"), (2, "B")] [("A", 1), ("B", 2)] 0

def c9reg : Registry := fun x => if x = 1 then some c8info else none

def histEmpty : AllHist := fun _ => []

def c10comp : Competition :=
  { baseComp [(1, "A")] [] 0 with minVoteTokens := 100 }

/-! ## Theorems -/

theorem distribute_pot_zero (reg1 : Registry) (comp1 : Competition) (d : Nat)
    (tf : Nat → Bool) : (distribute reg1 comp1 d tf).2.1.pot = 0 := rfl

/-- C2: in the A/B/C tie scenario (votes 3,3,1, schedule `[50,30,20]`,
pot 100, all transfers succeeding) `pay_winners` pays A and B 40 each and
C 20, for a total of 100 with no leftover payments, and zeroes the pot. -/
theorem pay_winners_tie_scenario :
    (payWinners regEmpty c2comp 20 (some 0) (fun _ => true)).map
        (fun r => (r.2.1.pot, r.2.1.winner, r.2.2)) =
      some (0, some "A", [⟨1, 40, 40⟩, ⟨2, 40, 40⟩, ⟨3, 20, 20⟩]) ∧
    (([⟨1, 40, 40⟩, ⟨2, 40, 40⟩, ⟨3, 20, 20⟩] : List Payment).map Payment.lumen).sum
      = c2comp.pot := by
  exact ⟨by decide, by decide⟩

/-- C3 counterexample: a competition with `pot > 0` and a winner after
finalization on which `pay_winners` runs, yet the stored pot is unchanged
(100, not 0) when the call returns, because the token `decimals` query
failed and the distribution pass returned early. -/
theorem pay_winners_decimals_failure_keeps_pot :
    c3comp.finalized = true ∧ 0 < c3comp.pot ∧ c3comp.winner.isSome = true ∧
    c3comp.voteEnd < 20 ∧
    (payWinners regEmpty c3comp 20 none (fun _ => true)).map (fun r => r.2.1.pot)
      = some c3comp.pot := by
  exact ⟨rfl, by decide, rfl, by decide, by decide⟩

/-- C3 (amended): when the decimals query succeeds, any `pay_winners` call
that returns with a winner recorded has zeroed the stored pot, regardless
of how many individual transfers failed (the transfer oracle `tf` is
arbitrary). -/
theorem pay_winners_pot_zero_after_distribution (reg : Registry) (comp : Competition)
    (now d : Nat) (tf : Nat → Bool) (r : Registry × Competition × List Payment)
    (hr : payWinners reg comp now (some d) tf = some r)
    (hw : r.2.1.winner.isSome = true) : r.2.1.pot = 0 := by
  by_cases h1 : comp.voteEnd < now
  · by_cases h2 :
      (if comp.finalized then (reg, comp) else internalFinalize reg comp).2.pot = 0 ∨
      (if comp.finalized then (reg, comp) else internalFinalize reg comp).2.winner = none
    · simp only [payWinners, if_pos h1, if_pos h2, Option.some.injEq] at hr
      rcases h2 with h2 | h2
      · rw [← hr]
        exact h2
      · rw [← hr] at hw
        simp only [h2, Option.isSome_none] at hw
        exact absurd hw (by decide)
    · simp only [payWinners, if_pos h1, if_neg h2, Option.some.injEq] at hr
      rw [← hr]
      exact distribute_pot_zero _ _ _ _
  · simp only [payWinners, if_neg h1] at hr
    exact absurd hr (by simp)

theorem pay_winners_pot_zero_after_distribution_witness :
    payWinners regEmpty c3wComp 20 (some 0) (fun _ => true) = some c3wRes ∧
    c3wRes.2.1.winner.isSome = true ∧ c3wRes.2.1.pot = 0 := by
  refine ⟨rfl, by decide, ?_⟩
  exact pay_winners_pot_zero_after_distribution regEmpty c3wComp 20 0 (fun _ => true)
    c3wRes rfl (by decide)

/-- C4 counterexample: in `pay_winners` the conversion
`amt_lumen * 10^decimals` is *not* overflow-checked: with pot
4·10^12 and 7 decimals, the winner's 2·10^12 whole units convert to
2·10^19 minor units, which exceeds `2^64`; the call does not fail but
transfers the wrapped amount `2·10^19 mod 2^64` (twice: primary payment
and leftover redistribution). -/
theorem pay_winners_wrapped_transfer :
    (payWinners regEmpty c4comp 20 (some 7) (fun _ => true)).map (fun r => r.2.2) =
      some [⟨1, 2000000000000, 1553255926290448384⟩,
            ⟨1, 2000000000000, 1553255926290448384⟩] ∧
    U64 ≤ 2000000000000 * 10 ^ 7 ∧
    (2000000000000 * 10 ^ 7) % U64 = 1553255926290448384 := by
  exact ⟨by decide, by decide, by decide⟩

/-- C5: evaluating `vote` at a concrete eligible voter shows the actual
event order: the call is successful, yet two external token-service calls
(`decimals` and `balance`, made inside `check_voting_eligibility`) occur
*before* the vote-log write, contradicting the stated ordering (and the
source's own comment `Update vote_log before any external calls`). -/
theorem vote_external_calls_precede_log_write :
    (voteExec c5comp [] 7 "A" 5 0 10).2.isSome = true ∧
    extBeforeLog (voteExec c5comp [] 7 "A" 5 0 10).1 = true ∧
    (voteExec c5comp [] 7 "A" 5 0 10).1 =
      [VoteEvent.auth, VoteEvent.extCall "decimals", VoteEvent.extCall "balance",
       VoteEvent.voteLogWrite, VoteEvent.storageWrite "vote_hist",
       VoteEvent.storageWrite "c"] := by
  exact ⟨by decide, by decide, by decide⟩

/-- C6 counterexample: `get_competition` is a status read that performs no
finalization: at time 20 (past `vote_end = 10`) it returns the stored
competition still carrying `finalized = false`, and it has no storage
output at all, so the stored competition remains unfinalized after the
read completes. -/
theorem get_competition_read_does_not_finalize :
    getCompetition c6store "c" = some c6comp ∧ c6comp.finalized = false ∧
    c6comp.voteEnd < 20 := by
  exact ⟨by decide, rfl, by decide⟩

/-- C10: `check_voting_eligibility` computes `current_balance` by reducing
the token service's `i128` balance modulo `2^64` (the `as u64` cast) and
then dividing by `10^decimals`; consequently at reported balance `-1`
(with 7 decimals) the computed balance is huge and `can_vote` is `true`
even though the reported balance is far below `min_required = 100`. -/
theorem eligibility_balance_cast_mod_u64 :
    (∀ (comp : Competition) (now decimals : Nat) (bal : Int) (voter : Nat),
      (checkVotingEligibility comp now decimals bal voter).currentBalance
        = (bal % (U64 : Int)).toNat / ((10 ^ decimals) % U64)) ∧
    (checkVotingEligibility c10comp 5 7 (-1) 9).canVote = true ∧
    (-1 : Int) < (c10comp.minVoteTokens : Int) := by
  refine ⟨fun comp now decimals bal voter => rfl, by decide, by decide⟩

/-! ### Bubble sort: length, stability, sortedness -/

theorem bpassN_nil (n : Nat) : bpassN n ([] : List (String × Nat)) = [] := by
  cases n <;> rfl

theorem bpassN_single (n : Nat) (x : String × Nat) : bpassN n [x] = [x] := by
  cases n <;> rfl

theorem bpassN_length (n : Nat) :
    ∀ l : List (String × Nat), (bpassN n l).length = l.length := by
  induction n with
  | zero => intro l; rfl
  | succ n ih =>
    intro l
    cases l with
    | nil => rfl
    | cons x l' =>
      cases l' with
      | nil => rfl
      | cons y rest =>
        simp only [bpassN]
        by_cases h : x.2 < y.2
        · rw [if_pos h]; simp [ih (x :: rest)]
        · rw [if_neg h]; simp [ih (y :: rest)]

theorem bsortAux_length (k : Nat) :
    ∀ l : List (String × Nat), (bsortAux k l).length = l.length := by
  induction k with
  | zero => intro l; rfl
  | succ k ih =>
    intro l
    simp only [bsortAux]
    rw [ih, bpassN_length]

theorem bubbleSort_length (l : List (String × Nat)) :
    (bubbleSort l).length = l.length :=
  bsortAux_length _ l

theorem bpassN_filter (v : Nat) (n : Nat) :
    ∀ l : List (String × Nat),
      (bpassN n l).filter (fun p => decide (p.2 = v))
        = l.filter (fun p => decide (p.2 = v)) := by
  induction n with
  | zero => intro l; rfl
  | succ n ih =>
    intro l
    cases l with
    | nil => rfl
    | cons x l' =>
      cases l' with
      | nil => rfl
      | cons y rest =>
        simp only [bpassN]
        by_cases h : x.2 < y.2
        · rw [if_pos h]
          by_cases hx : x.2 = v <;> by_cases hy : y.2 = v
          · exfalso; rw [hx, hy] at h; exact lt_irrefl v h
          · simp [List.filter_cons, hx, hy, ih (x :: rest)]
          · simp [List.filter_cons, hx, hy, ih (x :: rest)]
          · simp [List.filter_cons, hx, hy, ih (x :: rest)]
        · rw [if_neg h]
          simp [List.filter_cons, ih (y :: rest)]

theorem bsortAux_filter (v : Nat) (k : Nat) :
    ∀ l : List (String × Nat),
      (bsortAux k l).filter (fun p => decide (p.2 = v))
        = l.filter (fun p => decide (p.2 = v)) := by
  induction k with
  | zero => intro l; rfl
  | succ k ih =>
    intro l
    simp only [bsortAux]
    rw [ih, bpassN_filter]

theorem tailSettled_of_len_le (k : Nat) (l : List (String × Nat))
    (h : l.length ≤ k) : TailSettled k l := by
  have hd : l.drop k = [] := List.drop_eq_nil_of_le h
  constructor
  · rw [hd]; exact List.sorted_nil
  · intro x _ y hy
    rw [hd] at hy
    exact absurd hy (List.not_mem_nil y)

/-- After a pass with bound `n` over `a :: l`, every element at position `n`
or later is either bounded by the old head `a` or was already at position
`n` or later of `l` (the carried minimum, plus the untouched suffix). -/
theorem bpassN_drop_le (n : Nat) :
    ∀ (a : String × Nat) (l : List (String × Nat)),
      ∀ z ∈ (bpassN n (a :: l)).drop n, z.2 ≤ a.2 ∨ z ∈ l.drop n := by
  induction n with
  | zero =>
    intro a l z hz
    simp only [bpassN, List.drop_zero] at hz ⊢
    rcases List.mem_cons.mp hz with rfl | h
    · exact Or.inl le_rfl
    · exact Or.inr h
  | succ n ih =>
    intro a l z hz
    cases l with
    | nil =>
      rw [bpassN_single] at hz
      simp at hz
    | cons b t =>
      simp only [bpassN] at hz
      by_cases hab : a.2 < b.2
      · rw [if_pos hab, List.drop_succ_cons] at hz
        rcases ih a t z hz with h | h
        · exact Or.inl h
        · exact Or.inr (by rw [List.drop_succ_cons]; exact h)
      · rw [if_neg hab, List.drop_succ_cons] at hz
        rcases ih b t z hz with h | h
        · exact Or.inl (le_trans h (Nat.le_of_not_lt hab))
        · exact Or.inr (by rw [List.drop_succ_cons]; exact h)

/-- One bounded pass extends the settled suffix by one position. -/
theorem bpassN_settled (k : Nat) :
    ∀ l : List (String × Nat),
      TailSettled (k + 2) l → TailSettled (k + 1) (bpassN (k + 1) l) := by
  induction k with
  | zero =>
    intro l h
    cases l with
    | nil => rw [bpassN_nil]; exact tailSettled_of_len_le _ _ (by simp)
    | cons x l' =>
      cases l' with
      | nil => rw [bpassN_single]; exact tailSettled_of_len_le _ _ (by simp)
      | cons y rest =>
        obtain ⟨hs, hd⟩ := h
        have hs' : List.Sorted (fun a b : String × Nat => b.2 ≤ a.2) rest := by
          simpa only [List.drop_succ_cons, List.drop_zero] using hs
        have hd0 : ∀ u ∈ (x :: y :: rest).take 2, ∀ z ∈ (x :: y :: rest).drop 2,
            z.2 ≤ u.2 := hd
        have hdx : ∀ z ∈ rest, z.2 ≤ x.2 := by
          intro z hz
          exact hd0 x (by simp) z (by simpa only [List.drop_succ_cons, List.drop_zero])
        have hdy : ∀ z ∈ rest, z.2 ≤ y.2 := by
          intro z hz
          exact hd0 y (by simp) z (by simpa only [List.drop_succ_cons, List.drop_zero])
        simp only [bpassN]
        by_cases hxy : x.2 < y.2
        · rw [if_pos hxy]
          constructor
          · rw [List.drop_succ_cons, List.drop_zero, List.sorted_cons]
            exact ⟨hdx, hs'⟩
          · intro u hu z hz
            rw [List.take_succ_cons, List.take_zero] at hu
            rw [List.drop_succ_cons, List.drop_zero] at hz
            rcases List.mem_cons.mp hu with rfl | hu'
            · rcases List.mem_cons.mp hz with rfl | hz'
              · exact le_of_lt hxy
              · exact hdy z hz'
            · exact absurd hu' (List.not_mem_nil u)
        · rw [if_neg hxy]
          constructor
          · rw [List.drop_succ_cons, List.drop_zero, List.sorted_cons]
            exact ⟨hdy, hs'⟩
          · intro u hu z hz
            rw [List.take_succ_cons, List.take_zero] at hu
            rw [List.drop_succ_cons, List.drop_zero] at hz
            rcases List.mem_cons.mp hu with rfl | hu'
            · rcases List.mem_cons.mp hz with rfl | hz'
              · exact Nat.le_of_not_lt hxy
              · exact hdx z hz'
            · exact absurd hu' (List.not_mem_nil u)
  | succ k ih =>
    intro l h
    cases l with
    | nil => rw [bpassN_nil]; exact tailSettled_of_len_le _ _ (by simp)
    | cons x l' =>
      cases l' with
      | nil => rw [bpassN_single]; exact tailSettled_of_len_le _ _ (by simp)
      | cons y rest =>
        obtain ⟨hs, hd⟩ := h
        have hs' : List.Sorted (fun a b : String × Nat => b.2 ≤ a.2)
            (rest.drop (k + 1)) := by
          simpa only [List.drop_succ_cons] using hs
        have hd0 : ∀ u ∈ (x :: y :: rest).take (k + 3),
            ∀ z ∈ (x :: y :: rest).drop (k + 3), z.2 ≤ u.2 := hd
        have hd' : ∀ u ∈ x :: y :: rest.take (k + 1), ∀ z ∈ rest.drop (k + 1),
            z.2 ≤ u.2 := by
          simpa only [List.take_succ_cons, List.drop_succ_cons] using hd0
        simp only [bpassN]
        by_cases hxy : x.2 < y.2
        · rw [if_pos hxy]
          have hsub : TailSettled (k + 2) (x :: rest) := by
            constructor
            · rw [List.drop_succ_cons]; exact hs'
            · intro u hu z hz
              rw [List.drop_succ_cons] at hz
              rw [List.take_succ_cons] at hu
              rcases List.mem_cons.mp hu with rfl | hu'
              · exact hd' u (List.mem_cons_self _ _) z hz
              · exact hd' u (List.mem_cons_of_mem x (List.mem_cons_of_mem y hu')) z hz
          have hw := ih (x :: rest) hsub
          constructor
          · rw [List.drop_succ_cons]; exact hw.1
          · intro u hu z hz
            rw [List.drop_succ_cons] at hz
            rw [List.take_succ_cons] at hu
            rcases List.mem_cons.mp hu with rfl | hu'
            · rcases bpassN_drop_le (k + 1) x rest z hz with hb | hb
              · exact le_trans hb (le_of_lt hxy)
              · exact hd' u (by simp) z hb
            · exact hw.2 u hu' z hz
        · rw [if_neg hxy]
          have hsub : TailSettled (k + 2) (y :: rest) := by
            constructor
            · rw [List.drop_succ_cons]; exact hs'
            · intro u hu z hz
              rw [List.drop_succ_cons] at hz
              rw [List.take_succ_cons] at hu
              rcases List.mem_cons.mp hu with rfl | hu'
              · exact hd' u (by simp) z hz
              · exact hd' u (List.mem_cons_of_mem x (List.mem_cons_of_mem y hu')) z hz
          have hw := ih (y :: rest) hsub
          constructor
          · rw [List.drop_succ_cons]; exact hw.1
          · intro u hu z hz
            rw [List.drop_succ_cons] at hz
            rw [List.take_succ_cons] at hu
            rcases List.mem_cons.mp hu with rfl | hu'
            · rcases bpassN_drop_le (k + 1) y rest z hz with hb | hb
              · exact le_trans hb (Nat.le_of_not_lt hxy)
              · exact hd' u (List.mem_cons_self _ _) z hb
            · exact hw.2 u hu' z hz

theorem bsortAux_sorted (k : Nat) :
    ∀ l : List (String × Nat), TailSettled (k + 1) l →
      List.Sorted (fun a b : String × Nat => b.2 ≤ a.2) (bsortAux k l) := by
  induction k with
  | zero =>
    intro l h
    cases l with
    | nil => exact List.sorted_nil
    | cons a t =>
      show List.Sorted _ (a :: t)
      rw [List.sorted_cons]
      obtain ⟨hs, hd⟩ := h
      constructor
      · intro b hb
        exact hd a (by simp) b (by simpa only [List.drop_succ_cons, List.drop_zero])
      · simpa only [List.drop_succ_cons, List.drop_zero] using hs
  | succ k ih =>
    intro l h
    exact ih _ (bpassN_settled k l h)

theorem bubbleSort_sorted (l : List (String × Nat)) :
    List.Sorted (fun a b : String × Nat => b.2 ≤ a.2) (bubbleSort l) := by
  show List.Sorted _ (bsortAux (l.length - 1) l)
  exact bsortAux_sorted _ l (tailSettled_of_len_le _ _ (by omega))

/-! ### `get_winner` rankings -/

theorem mkRankings_length (l : List (String × Nat)) :
    ∀ i, (mkRankings i l).length = l.length := by
  induction l with
  | nil => intro i; rfl
  | cons x t ih =>
    intro i
    cases x with
    | mk a v => simp [mkRankings, ih (i + 1)]

theorem mkRankings_map (l : List (String × Nat)) :
    ∀ i, (mkRankings i l).map (fun r => (r.artist, r.votes)) = l := by
  induction l with
  | nil => intro i; rfl
  | cons x t ih =>
    intro i
    cases x with
    | mk a v => simp [mkRankings, ih (i + 1)]

theorem mkRankings_rank (l : List (String × Nat)) :
    ∀ (i j : Nat) (hj : j < (mkRankings i l).length),
      ((mkRankings i l).get ⟨j, hj⟩).rank = (i + j + 1) % U32 := by
  induction l with
  | nil =>
    intro i j hj
    simp [mkRankings] at hj
  | cons x t ih =>
    intro i j hj
    cases x with
    | mk a v =>
      cases j with
      | zero => rfl
      | succ j =>
        have h' : j < (mkRankings (i + 1) t).length := by
          have hx := hj
          simp only [mkRankings, List.length_cons] at hx
          omega
        have hrec := ih (i + 1) j h'
        have heq : (i + 1) + j + 1 = i + (j + 1) + 1 := by omega
        calc ((mkRankings i ((a, v) :: t)).get ⟨j + 1, hj⟩).rank
            = ((mkRankings (i + 1) t).get ⟨j, h'⟩).rank := rfl
          _ = ((i + 1) + j + 1) % U32 := hrec
          _ = (i + (j + 1) + 1) % U32 := by rw [heq]

theorem getWinner_sorted (comp : Competition) :
    List.Sorted (fun a b : ArtistRanking => b.votes ≤ a.votes) (getWinner comp) := by
  have h := bubbleSort_sorted (artistVotes comp)
  have h2 : List.Pairwise (fun p q : String × Nat => q.2 ≤ p.2)
      ((mkRankings 0 (bubbleSort (artistVotes comp))).map
        (fun r => (r.artist, r.votes))) := by
    rw [mkRankings_map]
    exact h
  exact List.pairwise_map.mp h2

/-- C7: the ranking returned by `get_winner` is sorted by vote count
descending, its ranks are the contiguous 1-based positions, and artists
with equal vote counts keep their submission order (for every vote count
`v`, filtering the ranking's `(name, votes)` projection at `v` gives
exactly the submission-ordered list filtered at `v`).  The hypothesis
`artists.length < 2^32` discharges the `as u32` cast on the rank. -/
theorem get_winner_ranking_sorted_stable (comp : Competition)
    (h : comp.artists.length < U32) :
    List.Sorted (fun a b : ArtistRanking => b.votes ≤ a.votes) (getWinner comp) ∧
    (∀ j (hj : j < (getWinner comp).length),
      ((getWinner comp).get ⟨j, hj⟩).rank = j + 1) ∧
    (∀ v : Nat, ((getWinner comp).map (fun r => (r.artist, r.votes))).filter
        (fun p => decide (p.2 = v))
      = (artistVotes comp).filter (fun p => decide (p.2 = v))) := by
  have hl : (getWinner comp).length = comp.artists.length := by
    show (mkRankings 0 (bubbleSort (artistVotes comp))).length = _
    rw [mkRankings_length, bubbleSort_length]
    simp [artistVotes]
  refine ⟨getWinner_sorted comp, ?_, ?_⟩
  · intro j hj
    have hrk := mkRankings_rank (bubbleSort (artistVotes comp)) 0 j hj
    have hfin : (0 + j + 1) % U32 = j + 1 := by
      have : j + 1 < U32 := by omega
      rw [Nat.zero_add, Nat.mod_eq_of_lt this]
    exact hrk.trans hfin
  · intro v
    show ((mkRankings 0 (bubbleSort (artistVotes comp))).map
        (fun r => (r.artist, r.votes))).filter _ = _
    rw [mkRankings_map]
    show (bsortAux _ _).filter _ = _
    rw [bsortAux_filter]

theorem get_winner_ranking_sorted_stable_witness :
    c7comp.artists.length < U32 ∧
    ((getWinner c7comp).map (fun r => (r.artist, r.votes))).filter
        (fun p => decide (p.2 = 3))
      = (artistVotes c7comp).filter (fun p => decide (p.2 = 3)) := by
  exact ⟨by decide, (get_winner_ranking_sorted_stable c7comp (by decide)).2.2 3⟩

/-! ### Finalization -/

theorem internalFinalize_snd (reg : Registry) (comp : Competition) :
    ∃ w, (internalFinalize reg comp).2 = { comp with finalized := true, winner := w } := by
  unfold internalFinalize
  split
  · exact ⟨none, rfl⟩
  · split
    · exact ⟨none, rfl⟩
    · split
      · exact ⟨some _, rfl⟩
      · exact ⟨none, rfl⟩

theorem internalFinalize_finalized (reg : Registry) (comp : Competition) :
    (internalFinalize reg comp).2.finalized = true := by
  obtain ⟨w, hw⟩ := internalFinalize_snd reg comp
  rw [hw]

theorem internalFinalize_voteEnd (reg : Registry) (comp : Competition) :
    (internalFinalize reg comp).2.voteEnd = comp.voteEnd := by
  obtain ⟨w, hw⟩ := internalFinalize_snd reg comp
  rw [hw]

theorem internalFinalize_pot (reg : Registry) (comp : Competition) :
    (internalFinalize reg comp).2.pot = comp.pot := by
  obtain ⟨w, hw⟩ := internalFinalize_snd reg comp
  rw [hw]

theorem internalFinalize_shareSched (reg : Registry) (comp : Competition) :
    (internalFinalize reg comp).2.shareSched = comp.shareSched := by
  obtain ⟨w, hw⟩ := internalFinalize_snd reg comp
  rw [hw]

/-- Any stored result of one `get_active_competitions` step at the
processed id is finalized whenever its voting window has elapsed. -/
theorem getActiveStep_establishes (now : Nat)
    (st : Store × Registry × List CompetitionStatus) (id : String) :
    ∀ c, (getActiveStep now st id).1 id = some c → c.voteEnd < now →
      c.finalized = true := by
  intro c hc hv
  unfold getActiveStep at hc
  cases hsj : st.1 id with
  | none =>
    rw [hsj] at hc
    dsimp only at hc
    rw [hsj] at hc
    exact absurd hc (by simp)
  | some comp0 =>
    rw [hsj] at hc
    dsimp only at hc
    by_cases hcond : comp0.finalized = false ∧ comp0.voteEnd < now
    · rw [if_pos hcond] at hc
      dsimp only at hc
      unfold storeSet at hc
      rw [if_pos rfl] at hc
      have hceq : (internalFinalize st.2.1 comp0).2 = c := by
        injection hc
      rw [← hceq]
      exact internalFinalize_finalized _ _
    · rw [if_neg hcond] at hc
      dsimp only at hc
      rw [hsj] at hc
      have hceq : comp0 = c := by injection hc
      subst hceq
      rcases hb : comp0.finalized with _ | _
      · exact absurd ⟨hb, hv⟩ hcond
      · rfl

/-- One `get_active_competitions` step writes only at its own id. -/
theorem getActiveStep_frame (now : Nat)
    (st : Store × Registry × List CompetitionStatus) (id j : String)
    (hne : ¬ j = id) : (getActiveStep now st id).1 j = st.1 j := by
  unfold getActiveStep
  cases hsj : st.1 id with
  | none => rfl
  | some comp0 =>
    dsimp only
    by_cases hcond : comp0.finalized = false ∧ comp0.voteEnd < now
    · rw [if_pos hcond]
      dsimp only
      unfold storeSet
      rw [if_neg hne]
    · rw [if_neg hcond]

theorem getActive_fold_pres (now : Nat) (j : String) :
    ∀ (ids : List String) (st : Store × Registry × List CompetitionStatus),
      (∀ c, st.1 j = some c → c.voteEnd < now → c.finalized = true) →
      ∀ c, (ids.foldl (getActiveStep now) st).1 j = some c → c.voteEnd < now →
        c.finalized = true := by
  intro ids
  induction ids with
  | nil => intro st h; exact h
  | cons i rest ih =>
    intro st h
    apply ih (getActiveStep now st i)
    by_cases hji : j = i
    · subst hji
      exact getActiveStep_establishes now st j
    · intro c hc hv
      rw [getActiveStep_frame now st i j hji] at hc
      exact h c hc hv

theorem getActive_fold_finalizes (now : Nat) :
    ∀ (ids : List String) (st : Store × Registry × List CompetitionStatus),
      ∀ id ∈ ids, ∀ c, (ids.foldl (getActiveStep now) st).1 id = some c →
        c.voteEnd < now → c.finalized = true := by
  intro ids
  induction ids with
  | nil =>
    intro st id hid
    exact absurd hid (List.not_mem_nil id)
  | cons i rest ih =>
    intro st id hid c hc hv
    rcases List.mem_cons.mp hid with rfl | hmem
    · exact getActive_fold_pres now id rest (getActiveStep now st id)
        (getActiveStep_establishes now st id) c hc hv
    · exact ih (getActiveStep now st i) id hmem c hc hv

theorem payWinners_result_finalized (reg : Registry) (comp : Competition)
    (now : Nat) (decRes : Option Nat) (tf : Nat → Bool)
    (r : Registry × Competition × List Payment)
    (hr : payWinners reg comp now decRes tf = some r) : r.2.1.finalized = true := by
  have hfr : (if comp.finalized then (reg, comp)
      else internalFinalize reg comp).2.finalized = true := by
    rcases hb : comp.finalized with _ | _
    · rw [if_neg (by decide : ¬ (false = true))]
      exact internalFinalize_finalized _ _
    · rw [if_pos rfl]
      exact hb
  by_cases h1 : comp.voteEnd < now
  · by_cases h2 :
      (if comp.finalized then (reg, comp) else internalFinalize reg comp).2.pot = 0 ∨
      (if comp.finalized then (reg, comp) else internalFinalize reg comp).2.winner = none
    · simp only [payWinners, if_pos h1, if_pos h2, Option.some.injEq] at hr
      rw [← hr]
      exact hfr
    · simp only [payWinners, if_pos h1, if_neg h2, Option.some.injEq] at hr
      cases decRes with
      | none =>
        simp only [Option.some.injEq] at hr
        rw [← hr]
        exact hfr
      | some d =>
        simp only [Option.some.injEq] at hr
        rw [← hr]
        exact hfr
  · simp only [payWinners, if_neg h1] at hr
    exact absurd hr (by simp)

/-- C6 (amended): the finalization transition fires on the read paths that
actually perform it — `get_active_competitions` finalizes every listed,
past-window competition it stores back, and any `pay_winners` call that
returns leaves the competition finalized; `get_competition` (see the
counterexample) performs no finalization. -/
theorem status_read_finalization :
    (∀ (store : Store) (reg : Registry) (ids : List String) (now : Nat),
      ∀ id ∈ ids, ∀ c, (getActiveCompetitions store reg ids now).1 id = some c →
        c.voteEnd < now → c.finalized = true) ∧
    (∀ (reg : Registry) (comp : Competition) (now : Nat) (decRes : Option Nat)
      (tf : Nat → Bool) (r : Registry × Competition × List Payment),
      payWinners reg comp now decRes tf = some r → r.2.1.finalized = true) := by
  constructor
  · intro store reg ids now id hid c hc hv
    exact getActive_fold_finalizes now ids (store, reg, []) id hid c hc hv
  · exact payWinners_result_finalized

theorem status_read_finalization_witness :
    ("ca" ∈ ["ca"]) ∧
    (getActiveCompetitions c6store2 regEmpty ["ca"] 20).1 "ca" = some c6after ∧
    c6after.voteEnd < 20 ∧ c6after.finalized = true := by
  refine ⟨by simp, rfl, by decide, ?_⟩
  exact (status_read_finalization.1 c6store2 regEmpty ["ca"] 20 "ca" (by simp)
    c6after rfl (by decide))

/-! ### C8: finalization sets the winner and bumps the win counter -/

theorem lastAddr_aux_const (nm : String) :
    ∀ (l : List (Nat × String)) (acc : Option Nat),
      (∀ an ∈ l, ¬ an.2 = nm) →
      l.foldl (fun acc an => if an.2 = nm then some an.1 else acc) acc = acc := by
  intro l
  induction l with
  | nil => intro acc _; rfl
  | cons x t ih =>
    intro acc hall
    simp only [List.foldl_cons]
    rw [if_neg (hall x (List.mem_cons_self _ _))]
    exact ih acc (fun an han => hall an (List.mem_cons_of_mem x han))

theorem lastAddr_isSome_any (artists : List (Nat × String)) (nm : String) (a : Nat)
    (h : lastAddr artists nm = some a) :
    artists.any (fun an => decide (an.2 = nm)) = true := by
  by_contra hfalse
  have hall : ∀ an ∈ artists, ¬ an.2 = nm := by
    intro an han hcontr
    exact hfalse (List.any_eq_true.mpr ⟨an, han, by simp [hcontr]⟩)
  rw [lastAddr, lastAddr_aux_const nm artists none hall] at h
  exact absurd h (by simp)

/-- C8: when finalization finds a top-ranked artist with positive votes, it
records that artist as the winner, marks the competition finalized, and
increments exactly that artist's `competitions_won` counter by one, leaving
every other registry entry untouched. -/
theorem internal_finalize_winner_and_counter (reg : Registry) (comp : Competition)
    (n : String) (v : Nat) (rest : List (String × Nat)) (a : Nat) (info : ArtistInfo)
    (hsort : bubbleSort (artistVotes comp) = (n, v) :: rest)
    (hv : 0 < v) (hfind : findAddr comp.artists n = some a)
    (hreg : reg a = some info) (hlt : info.competitionsWon + 1 < U32) :
    (internalFinalize reg comp).2.winner = some n ∧
    (internalFinalize reg comp).2.finalized = true ∧
    (internalFinalize reg comp).1 a
      = some { info with competitionsWon := info.competitionsWon + 1 } ∧
    (∀ b, ¬ b = a → (internalFinalize reg comp).1 b = reg b) := by
  have hne : ¬ comp.artists.length = 0 := by
    intro h0
    have hnil : comp.artists = [] := List.length_eq_zero.mp h0
    have : bubbleSort (artistVotes comp) = [] := by
      simp [artistVotes, hnil, bubbleSort, bsortAux]
    rw [this] at hsort
    exact absurd hsort (by simp)
  unfold internalFinalize
  rw [if_neg hne, hsort]
  dsimp only
  rw [if_pos hv, hfind]
  dsimp only
  unfold bumpWin
  rw [hreg]
  dsimp only
  refine ⟨rfl, rfl, ?_, ?_⟩
  · rw [if_pos rfl, Nat.mod_eq_of_lt hlt]
  · intro b hb
    rw [if_neg hb]

theorem internal_finalize_winner_and_counter_witness :
    (internalFinalize c8reg c8comp).2.winner = some "A" ∧
    (internalFinalize c8reg c8comp).1 1
      = some { c8info with competitionsWon := 5 } := by
  have h := internal_finalize_winner_and_counter c8reg c8comp "A" 2 [] 1 c8info
    rfl (by decide) rfl rfl (by decide)
  exact ⟨h.1, h.2.2.1⟩

/-! ### C9: `remove_artist` also clears the global registry entry -/

/-- C9: removing artist `nm` from a competition, where the removal loop
resolves `nm` to address `a`, also deletes `a`'s entry from the global
artist-info registry (the record holding `competitions_won`), leaving all
other registry entries untouched. -/
theorem remove_artist_removes_registry_entry (id : String) (comp : Competition)
    (reg : Registry) (allHist : AllHist) (nm : String) (a : Nat)
    (h : lastAddr comp.artists nm = some a) :
    ∃ out : Competition × Registry × AllHist,
      removeArtist id comp reg allHist true nm = some out ∧
      out.2.1 a = none ∧ (∀ b, ¬ b = a → out.2.1 b = reg b) := by
  have hany := lastAddr_isSome_any comp.artists nm a h
  unfold removeArtist
  dsimp only
  rw [hany, h]
  dsimp only
  refine ⟨_, rfl, ?_, ?_⟩
  · dsimp only
    rw [if_pos rfl]
  · intro b hb
    dsimp only
    rw [if_neg hb]

/-! ### C1: the distributed total never exceeds the pot -/

theorem addDiv_le (a b c : Nat) : a / c + b / c ≤ (a + b) / c := by
  rcases Nat.eq_zero_or_pos c with hc | hc
  · subst hc; simp
  · rw [Nat.le_div_iff_mul_le hc, Nat.add_mul]
    exact Nat.add_le_add (Nat.div_mul_le_self a c) (Nat.div_mul_le_self b c)

theorem mulDiv_le (k x c : Nat) : k * (x / c) ≤ k * x / c := by
  rcases Nat.eq_zero_or_pos c with hc | hc
  · subst hc; simp
  · rw [Nat.le_div_iff_mul_le hc, Nat.mul_assoc]
    exact Nat.mul_le_mul_left k (Nat.div_mul_le_self x c)

theorem divSum_le (L S : Nat) (l : List Nat) :
    (l.map (fun x => L * x / S)).sum ≤ L * l.sum / S := by
  induction l with
  | nil => simp
  | cons x t ih =>
    simp only [List.map_cons, List.sum_cons]
    calc L * x / S + (t.map (fun x => L * x / S)).sum
        ≤ L * x / S + L * t.sum / S := Nat.add_le_add_left ih _
      _ ≤ (L * x + L * t.sum) / S := addDiv_le _ _ _
      _ = L * (x + t.sum) / S := by rw [Nat.mul_add]

theorem take_sum_le (l : List Nat) (n : Nat) : (l.take n).sum ≤ l.sum := by
  conv_rhs => rw [← List.take_append_drop n l]
  rw [List.sum_append]
  exact Nat.le_add_right _ _

theorem range_getD_sum (l : List Nat) :
    ∀ k, ((List.range k).map (fun i => (l.get? i).getD 0)).sum = (l.take k).sum := by
  intro k
  induction k with
  | zero => simp
  | succ k ih =>
    rw [List.range_succ, List.map_append, List.sum_append, ih, List.take_succ,
      List.sum_append]
    cases h : l[k]? <;> simp [List.get?_eq_getElem?, h]

theorem sumShare_eq (share : List Nat) :
    ∀ (k r : Nat), sumShare share r k = ((share.drop r).take k).sum := by
  intro k
  induction k with
  | zero => intro r; simp [sumShare]
  | succ k ih =>
    intro r
    rcases hd : share.drop r with _ | ⟨s, restl⟩
    · have hlen : share.length ≤ r := by
        rw [← List.drop_eq_nil_iff]
        exact hd
      have hget : share[r]? = none := List.getElem?_eq_none hlen
      have hd2 : share.drop (r + 1) = [] :=
        List.drop_eq_nil_of_le (le_trans hlen (Nat.le_succ r))
      simp [sumShare, List.get?_eq_getElem?, hget, ih (r + 1), hd2]
    · have hget : share[r]? = some s := by
        have hq := List.getElem?_drop share r 0
        rw [hd] at hq
        simpa using hq.symm
      have hrest : share.drop (r + 1) = restl := by
        have hq := List.tail_drop share r
        rw [hd] at hq
        exact hq.symm
      simp [sumShare, List.get?_eq_getElem?, hget, ih (r + 1), hrest]

theorem payGroup_spec (pot mult s : Nat) (artists : List (Nat × String))
    (tf : Nat → Bool) :
    ∀ (group : List String) (t att : Nat) (paid : List Payment),
      t + group.length * (((pot * s) % U64) / 100) < U64 →
      ∃ new : List Payment,
        (payGroup pot mult s artists tf group t att paid).2.2 = paid ++ new ∧
        (payGroup pot mult s artists tf group t att paid).1
          = t + (new.map Payment.lumen).sum ∧
        (new.map Payment.lumen).sum ≤ group.length * (((pot * s) % U64) / 100) := by
  intro group
  induction group with
  | nil =>
    intro t att paid _
    exact ⟨[], by simp [payGroup], by simp [payGroup], by simp⟩
  | cons nm rest ih =>
    intro t att paid hpre
    simp only [List.length_cons, Nat.succ_mul] at hpre
    have hpre' : t + rest.length * (((pot * s) % U64) / 100) < U64 := by omega
    simp only [payGroup]
    split
    · obtain ⟨new, h1, h2, h3⟩ := ih t att paid hpre'
      refine ⟨new, h1, h2, ?_⟩
      simp only [List.length_cons, Nat.succ_mul]
      omega
    · rename_i a hf
      by_cases hstroop : 0 < (((pot * s) % U64) / 100 * mult) % U64
      · rw [if_pos hstroop]
        by_cases htf : tf att = true
        · rw [if_pos htf]
          have hta : t + ((pot * s) % U64) / 100 < U64 := by omega
          rw [Nat.mod_eq_of_lt hta]
          have hpre2 : (t + ((pot * s) % U64) / 100)
              + rest.length * (((pot * s) % U64) / 100) < U64 := by omega
          obtain ⟨new, h1, h2, h3⟩ := ih (t + ((pot * s) % U64) / 100) (att + 1)
            (paid ++ [⟨a, ((pot * s) % U64) / 100, (((pot * s) % U64) / 100 * mult) % U64⟩])
            hpre2
          refine ⟨⟨a, ((pot * s) % U64) / 100, (((pot * s) % U64) / 100 * mult) % U64⟩
            :: new, ?_, ?_, ?_⟩
          · rw [h1, List.append_assoc]
            rfl
          · rw [h2]
            simp only [List.map_cons, List.sum_cons]
            omega
          · simp only [List.map_cons, List.sum_cons, List.length_cons, Nat.succ_mul]
            omega
        · rw [if_neg htf]
          obtain ⟨new, h1, h2, h3⟩ := ih t (att + 1) paid hpre'
          refine ⟨new, h1, h2, ?_⟩
          simp only [List.length_cons, Nat.succ_mul]
          omega
      · rw [if_neg hstroop]
        obtain ⟨new, h1, h2, h3⟩ := ih t att paid hpre'
        refine ⟨new, h1, h2, ?_⟩
        simp only [List.length_cons, Nat.succ_mul]
        omega

theorem primaryLoop_spec (pot mult : Nat) (share : List Nat)
    (artists : List (Nat × String)) (tf : Nat → Bool) :
    ∀ (grouped : List (Nat × List String)) (r t att : Nat) (paid : List Payment),
      t + pot * (share.drop r).sum / 100 < U64 →
      ∃ new : List Payment,
        (primaryLoop pot mult share artists tf grouped r t att paid).2.2
          = paid ++ new ∧
        (primaryLoop pot mult share artists tf grouped r t att paid).1
          = t + (new.map Payment.lumen).sum ∧
        (new.map Payment.lumen).sum ≤ pot * (share.drop r).sum / 100 := by
  intro grouped
  induction grouped with
  | nil =>
    intro r t att paid _
    exact ⟨[], by simp [primaryLoop], by simp [primaryLoop], by simp⟩
  | cons g rest ih =>
    rcases g with ⟨v, group⟩
    intro r t att paid hpre
    simp only [primaryLoop]
    by_cases hv : v = 0
    · rw [if_pos hv]
      exact ⟨[], by simp, by simp, by simp⟩
    rw [if_neg hv]
    by_cases hcomb : sumShare share r group.length = 0
    · rw [if_pos hcomb]
      exact ⟨[], by simp, by simp, by simp⟩
    rw [if_neg hcomb]
    have hcombined : sumShare share r group.length
        = ((share.drop r).take group.length).sum := sumShare_eq share group.length r
    have hkamt : group.length
          * (((pot * (sumShare share r group.length / group.length)) % U64) / 100)
        ≤ pot * ((share.drop r).take group.length).sum / 100 := by
      calc group.length
            * (((pot * (sumShare share r group.length / group.length)) % U64) / 100)
          ≤ group.length
            * ((pot * (sumShare share r group.length / group.length)) / 100) :=
            Nat.mul_le_mul_left _ (Nat.div_le_div_right (Nat.mod_le _ _))
        _ ≤ group.length
            * (pot * (sumShare share r group.length / group.length)) / 100 :=
            mulDiv_le _ _ _
        _ = pot * (sumShare share r group.length / group.length * group.length)
            / 100 := by
            rw [← Nat.mul_assoc, Nat.mul_comm group.length pot, Nat.mul_assoc,
              Nat.mul_comm group.length]
        _ ≤ pot * sumShare share r group.length / 100 :=
            Nat.div_le_div_right
              (Nat.mul_le_mul_left pot (Nat.div_mul_le_self _ _))
        _ = pot * ((share.drop r).take group.length).sum / 100 := by
            rw [hcombined]
    have htake_le : ((share.drop r).take group.length).sum ≤ (share.drop r).sum :=
      take_sum_le _ _
    have hsplit : (share.drop r).sum
        = ((share.drop r).take group.length).sum
          + ((share.drop r).drop group.length).sum := by
      conv_lhs => rw [← List.take_append_drop group.length (share.drop r)]
      rw [List.sum_append]
    have hdd : (share.drop r).drop group.length = share.drop (r + group.length) := by
      rw [List.drop_drop, Nat.add_comm]
    have hfull_le : group.length
          * (((pot * (sumShare share r group.length / group.length)) % U64) / 100)
        ≤ pot * (share.drop r).sum / 100 :=
      le_trans hkamt (Nat.div_le_div_right (Nat.mul_le_mul_left pot htake_le))
    have hpg_pre : t + group.length
        * (((pot * (sumShare share r group.length / group.length)) % U64) / 100)
        < U64 := by omega
    obtain ⟨new1, hp1, hp2, hp3⟩ := payGroup_spec pot mult
      (sumShare share r group.length / group.length) artists tf group t att paid
      hpg_pre
    have hsum1 : (new1.map Payment.lumen).sum
        ≤ pot * ((share.drop r).take group.length).sum / 100 := le_trans hp3 hkamt
    have hcombine2 : pot * ((share.drop r).take group.length).sum / 100
          + pot * ((share.drop r).drop group.length).sum / 100
        ≤ pot * (share.drop r).sum / 100 := by
      rw [hsplit, Nat.mul_add]
      exact addDiv_le _ _ _
    by_cases hbreak : share.length ≤ r + group.length
    · rw [if_pos hbreak]
      exact ⟨new1, hp1, hp2, le_trans hp3 hfull_le⟩
    · rw [if_neg hbreak]
      rw [hp1, hp2]
      have hrec_pre : (t + (new1.map Payment.lumen).sum)
          + pot * (share.drop (r + group.length)).sum / 100 < U64 := by
        rw [← hdd]
        omega
      obtain ⟨new2, hq1, hq2, hq3⟩ := ih (r + group.length)
        (t + (new1.map Payment.lumen).sum)
        ((payGroup pot mult (sumShare share r group.length / group.length)
          artists tf group t att paid).2.1) (paid ++ new1) hrec_pre
      refine ⟨new1 ++ new2, ?_, ?_, ?_⟩
      · rw [hq1, List.append_assoc]
      · rw [hq2, List.map_append, List.sum_append]
        omega
      · rw [List.map_append, List.sum_append]
        rw [← hdd] at hq3
        omega

theorem leftoverStep_spec (share : List Nat) (artists : List (Nat × String))
    (leftover tws mult : Nat) (sorted : List (String × Nat)) (tf : Nat → Bool)
    (st : Nat × List Payment) (i : Nat) :
    ∃ add : List Payment,
      (leftoverStep share artists leftover tws mult sorted tf st i).2
        = st.2 ++ add ∧
      (add.map Payment.lumen).sum
        ≤ ((leftover * ((share.get? i).getD 0)) % U64) / tws := by
  unfold leftoverStep
  split
  · rename_i nv ashare hs hsh
    by_cases h1 : 0 < nv.2
    · rw [if_pos h1]
      by_cases h2 : 0 < leftover * ashare % U64 / tws
      · rw [if_pos h2]
        split
        · rename_i a hf
          by_cases h3 : 0 < leftover * ashare % U64 / tws * mult % U64
          · rw [if_pos h3]
            by_cases htf : tf st.1 = true
            · rw [if_pos htf]
              refine ⟨[⟨a, leftover * ashare % U64 / tws,
                leftover * ashare % U64 / tws * mult % U64⟩], rfl, ?_⟩
              rw [hsh]
              simp
            · rw [if_neg htf]
              exact ⟨[], by simp, by simp⟩
          · rw [if_neg h3]
            exact ⟨[], by simp, by simp⟩
        · exact ⟨[], by simp, by simp⟩
      · rw [if_neg h2]
        exact ⟨[], by simp, by simp⟩
    · rw [if_neg h1]
      exact ⟨[], by simp, by simp⟩
  · exact ⟨[], by simp, by simp⟩

theorem leftoverFold_spec (share : List Nat) (artists : List (Nat × String))
    (leftover tws mult : Nat) (sorted : List (String × Nat)) (tf : Nat → Bool) :
    ∀ (idxs : List Nat) (st : Nat × List Payment),
      ∃ add : List Payment,
        (idxs.foldl (leftoverStep share artists leftover tws mult sorted tf) st).2
          = st.2 ++ add ∧
        (add.map Payment.lumen).sum
          ≤ ((idxs.map (fun i =>
              ((leftover * ((share.get? i).getD 0)) % U64) / tws)).sum) := by
  intro idxs
  induction idxs with
  | nil => intro st; exact ⟨[], by simp, by simp⟩
  | cons i rest ih =>
    intro st
    obtain ⟨a1, h1, h2⟩ :=
      leftoverStep_spec share artists leftover tws mult sorted tf st i
    obtain ⟨a2, h3, h4⟩ :=
      ih (leftoverStep share artists leftover tws mult sorted tf st i)
    refine ⟨a1 ++ a2, ?_, ?_⟩
    · rw [List.foldl_cons, h3, h1, List.append_assoc]
    · rw [List.map_append, List.sum_append, List.map_cons, List.sum_cons]
      exact Nat.add_le_add h2 h4

theorem leftover_total_le (share : List Nat) (leftover : Nat) (wc : Nat)
    (htws : 0 < sumShare share 0 wc) :
    ((List.range wc).map (fun i =>
        ((leftover * ((share.get? i).getD 0)) % U64) / sumShare share 0 wc)).sum
      ≤ leftover := by
  have hstep : ∀ i ∈ List.range wc,
      ((leftover * ((share.get? i).getD 0)) % U64) / sumShare share 0 wc
        ≤ leftover * ((share.get? i).getD 0) / sumShare share 0 wc :=
    fun i _ => Nat.div_le_div_right (Nat.mod_le _ _)
  calc ((List.range wc).map (fun i =>
          ((leftover * ((share.get? i).getD 0)) % U64) / sumShare share 0 wc)).sum
      ≤ ((List.range wc).map (fun i =>
          leftover * ((share.get? i).getD 0) / sumShare share 0 wc)).sum :=
        List.sum_le_sum hstep
    _ = (((List.range wc).map (fun i => (share.get? i).getD 0)).map
          (fun x => leftover * x / sumShare share 0 wc)).sum := by
        rw [List.map_map]
        rfl
    _ ≤ leftover * ((List.range wc).map (fun i => (share.get? i).getD 0)).sum
          / sumShare share 0 wc := divSum_le _ _ _
    _ = leftover * (share.take wc).sum / sumShare share 0 wc := by
        rw [range_getD_sum]
    _ = leftover * sumShare share 0 wc / sumShare share 0 wc := by
        rw [sumShare_eq share wc 0, List.drop_zero]
    _ = leftover := Nat.mul_div_cancel leftover htws

/-- C1 core: one distribution pass pays out (in whole units, over both the
primary tie-group walk and the leftover redistribution, counting only
successful transfers) at most the pot it started from, provided the pot is
a `u64` value and the share schedule sums to at most 100 (the creation
default `[50,30,20]` sums to exactly 100 and no operation alters it). -/
theorem distribute_sum_le (reg1 : Registry) (comp1 : Competition) (d : Nat)
    (tf : Nat → Bool) (hpot : comp1.pot < U64)
    (hshare : comp1.shareSched.sum ≤ 100) :
    (((distribute reg1 comp1 d tf).2.2).map Payment.lumen).sum ≤ comp1.pot := by
  have hPotBound : comp1.pot * comp1.shareSched.sum / 100 ≤ comp1.pot := by
    have h1 : comp1.pot * comp1.shareSched.sum / 100 ≤ comp1.pot * 100 / 100 :=
      Nat.div_le_div_right (Nat.mul_le_mul_left _ hshare)
    rwa [Nat.mul_div_cancel _ (by omega : (0:Nat) < 100)] at h1
  unfold distribute
  dsimp only
  set sorted := bubbleSort (artistVotes comp1) with hsorted
  set pr := primaryLoop comp1.pot ((10 ^ d) % U64) comp1.shareSched comp1.artists
    tf (groupVotes sorted) 0 0 0 [] with hpr
  have hpre : (0 : Nat) + comp1.pot * (comp1.shareSched.drop 0).sum / 100 < U64 := by
    rw [List.drop_zero, Nat.zero_add]
    omega
  obtain ⟨new1, hp1, hp2, hp3⟩ := primaryLoop_spec comp1.pot ((10 ^ d) % U64)
    comp1.shareSched comp1.artists tf (groupVotes sorted) 0 0 0 [] hpre
  rw [← hpr] at hp1 hp2
  rw [List.nil_append] at hp1
  rw [Nat.zero_add] at hp2
  rw [List.drop_zero] at hp3
  have hsum1 : (new1.map Payment.lumen).sum ≤ comp1.pot := le_trans hp3 hPotBound
  have hsub : u64sub comp1.pot pr.1 = comp1.pot - (new1.map Payment.lumen).sum := by
    rw [hp2]
    unfold u64sub
    rw [Nat.mod_eq_of_lt hpot, Nat.mod_eq_of_lt (lt_of_le_of_lt hsum1 hpot)]
    have h1 : comp1.pot + U64 - (new1.map Payment.lumen).sum
        = (comp1.pot - (new1.map Payment.lumen).sum) + U64 := by omega
    rw [h1, Nat.add_mod_right]
    exact Nat.mod_eq_of_lt (by omega)
  rw [hp1, hsub]
  by_cases hg1 : 0 < comp1.pot - (new1.map Payment.lumen).sum ∧ 0 < sorted.length
  · rw [if_pos hg1]
    set wc := min (sorted.takeWhile (fun p => decide (0 < p.2))).length
      comp1.shareSched.length with hwc
    by_cases hg2 : 0 < sumShare comp1.shareSched 0 wc
    · rw [if_pos hg2]
      obtain ⟨add, hA1, hA2⟩ := leftoverFold_spec comp1.shareSched comp1.artists
        (comp1.pot - (new1.map Payment.lumen).sum) (sumShare comp1.shareSched 0 wc)
        ((10 ^ d) % U64) sorted tf (List.range wc) (pr.2.1, new1)
      dsimp only at hA1
      rw [hA1]
      have hA3 : (add.map Payment.lumen).sum
          ≤ comp1.pot - (new1.map Payment.lumen).sum :=
        le_trans hA2 (leftover_total_le comp1.shareSched
          (comp1.pot - (new1.map Payment.lumen).sum) wc hg2)
      rw [List.map_append, List.sum_append]
      omega
    · rw [if_neg hg2]
      exact hsum1
  · rw [if_neg hg1]
    exact hsum1

/-- C1: the sum of the whole-unit amounts of all successful prize transfers
of one `pay_winners` call (primary payments plus leftover redistribution)
never exceeds the pot recorded when the distribution began.  `pot < 2^64`
holds because `pot` is a `u64`; `share schedule sums to ≤ 100` holds for
every competition the contract creates (`[50,30,20]`). -/
theorem pay_winners_total_le_pot (reg : Registry) (comp : Competition) (now : Nat)
    (decRes : Option Nat) (tf : Nat → Bool)
    (r : Registry × Competition × List Payment)
    (hpot : comp.pot < U64) (hshare : comp.shareSched.sum ≤ 100)
    (hr : payWinners reg comp now decRes tf = some r) :
    ((r.2.2).map Payment.lumen).sum ≤ comp.pot := by
  have hfrpot : (if comp.finalized then (reg, comp)
      else internalFinalize reg comp).2.pot = comp.pot := by
    rcases hb : comp.finalized with _ | _
    · rw [if_neg (by decide : ¬ (false = true))]
      exact internalFinalize_pot _ _
    · rw [if_pos rfl]
  have hfrshare : (if comp.finalized then (reg, comp)
      else internalFinalize reg comp).2.shareSched = comp.shareSched := by
    rcases hb : comp.finalized with _ | _
    · rw [if_neg (by decide : ¬ (false = true))]
      exact internalFinalize_shareSched _ _
    · rw [if_pos rfl]
  by_cases h1 : comp.voteEnd < now
  · by_cases h2 :
      (if comp.finalized then (reg, comp) else internalFinalize reg comp).2.pot = 0 ∨
      (if comp.finalized then (reg, comp) else internalFinalize reg comp).2.winner = none
    · simp only [payWinners, if_pos h1, if_pos h2, Option.some.injEq] at hr
      rw [← hr]
      simp
    · simp only [payWinners, if_pos h1, if_neg h2] at hr
      cases decRes with
      | none =>
        simp only [Option.some.injEq] at hr
        rw [← hr]
        simp
      | some d =>
        simp only [Option.some.injEq] at hr
        rw [← hr]
        have hds := distribute_sum_le
          (if comp.finalized then (reg, comp) else internalFinalize reg comp).1
          (if comp.finalized then (reg, comp) else internalFinalize reg comp).2
          d tf (by rw [hfrpot]; exact hpot) (by rw [hfrshare]; exact hshare)
        rw [hfrpot] at hds
        exact hds
  · simp only [payWinners, if_neg h1] at hr
    exact absurd hr (by simp)

theorem pay_winners_total_le_pot_witness :
    c2comp.pot < U64 ∧ c2comp.shareSched.sum ≤ 100 ∧
    ((c1res.2.2).map Payment.lumen).sum ≤ c2comp.pot := by
  refine ⟨by decide, by decide, ?_⟩
  exact pay_winners_total_le_pot regEmpty c2comp 20 (some 0) (fun _ => true) c1res
    (by decide) (by decide) rfl

/-! ### C4 (amended): which conversions are overflow-checked -/

theorem payGroup_stroops (pot mult s : Nat) (artists : List (Nat × String))
    (tf : Nat → Bool) :
    ∀ (group : List String) (t att : Nat) (paid : List Payment),
      (∀ p ∈ paid, p.stroop = (p.lumen * mult) % U64) →
      ∀ p ∈ (payGroup pot mult s artists tf group t att paid).2.2,
        p.stroop = (p.lumen * mult) % U64 := by
  intro group
  induction group with
  | nil => intro t att paid h; simpa [payGroup] using h
  | cons nm rest ih =>
    intro t att paid h
    simp only [payGroup]
    split
    · exact ih t att paid h
    · rename_i a hf
      by_cases hstroop : 0 < pot * s % U64 / 100 * mult % U64
      · rw [if_pos hstroop]
        by_cases htf : tf att = true
        · rw [if_pos htf]
          apply ih
          intro p hp
          rcases List.mem_append.mp hp with hp | hp
          · exact h p hp
          · rw [List.mem_singleton.mp hp]
        · rw [if_neg htf]
          exact ih t (att + 1) paid h
      · rw [if_neg hstroop]
        exact ih t att paid h

theorem primaryLoop_stroops (pot mult : Nat) (share : List Nat)
    (artists : List (Nat × String)) (tf : Nat → Bool) :
    ∀ (grouped : List (Nat × List String)) (r t att : Nat) (paid : List Payment),
      (∀ p ∈ paid, p.stroop = (p.lumen * mult) % U64) →
      ∀ p ∈ (primaryLoop pot mult share artists tf grouped r t att paid).2.2,
        p.stroop = (p.lumen * mult) % U64 := by
  intro grouped
  induction grouped with
  | nil => intro r t att paid h; simpa [primaryLoop] using h
  | cons g rest ih =>
    rcases g with ⟨v, group⟩
    intro r t att paid h
    simp only [primaryLoop]
    by_cases hv : v = 0
    · rw [if_pos hv]; simpa using h
    rw [if_neg hv]
    by_cases hcomb : sumShare share r group.length = 0
    · rw [if_pos hcomb]; simpa using h
    rw [if_neg hcomb]
    by_cases hbreak : share.length ≤ r + group.length
    · rw [if_pos hbreak]
      exact payGroup_stroops pot mult _ artists tf group t att paid h
    · rw [if_neg hbreak]
      exact ih _ _ _ _ (payGroup_stroops pot mult _ artists tf group t att paid h)

theorem leftoverStep_stroops (share : List Nat) (artists : List (Nat × String))
    (leftover tws mult : Nat) (sorted : List (String × Nat)) (tf : Nat → Bool)
    (st : Nat × List Payment) (i : Nat)
    (h : ∀ p ∈ st.2, p.stroop = (p.lumen * mult) % U64) :
    ∀ p ∈ (leftoverStep share artists leftover tws mult sorted tf st i).2,
      p.stroop = (p.lumen * mult) % U64 := by
  unfold leftoverStep
  split
  · rename_i nv ashare hs hsh
    by_cases h1 : 0 < nv.2
    · rw [if_pos h1]
      by_cases h2 : 0 < leftover * ashare % U64 / tws
      · rw [if_pos h2]
        split
        · rename_i a hf
          by_cases h3 : 0 < leftover * ashare % U64 / tws * mult % U64
          · rw [if_pos h3]
            by_cases htf : tf st.1 = true
            · rw [if_pos htf]
              intro p hp
              rcases List.mem_append.mp hp with hp | hp
              · exact h p hp
              · rw [List.mem_singleton.mp hp]
            · rw [if_neg htf]
              exact h
          · rw [if_neg h3]
            exact h
        · exact h
      · rw [if_neg h2]
        exact h
    · rw [if_neg h1]
      exact h
  · exact h

theorem leftoverFold_stroops (share : List Nat) (artists : List (Nat × String))
    (leftover tws mult : Nat) (sorted : List (String × Nat)) (tf : Nat → Bool) :
    ∀ (idxs : List Nat) (st : Nat × List Payment),
      (∀ p ∈ st.2, p.stroop = (p.lumen * mult) % U64) →
      ∀ p ∈ (idxs.foldl
          (leftoverStep share artists leftover tws mult sorted tf) st).2,
        p.stroop = (p.lumen * mult) % U64 := by
  intro idxs
  induction idxs with
  | nil => intro st h; simpa using h
  | cons i rest ih =>
    intro st h
    rw [List.foldl_cons]
    exact ih _ (leftoverStep_stroops share artists leftover tws mult sorted tf st i h)

theorem distribute_stroops (reg1 : Registry) (comp1 : Competition) (d : Nat)
    (tf : Nat → Bool) :
    ∀ p ∈ (distribute reg1 comp1 d tf).2.2,
      p.stroop = (p.lumen * ((10 ^ d) % U64)) % U64 := by
  unfold distribute
  dsimp only
  set sorted := bubbleSort (artistVotes comp1) with hsorted
  set pr := primaryLoop comp1.pot ((10 ^ d) % U64) comp1.shareSched comp1.artists
    tf (groupVotes sorted) 0 0 0 [] with hpr
  have hprim : ∀ p ∈ pr.2.2, p.stroop = (p.lumen * ((10 ^ d) % U64)) % U64 := by
    rw [hpr]
    exact primaryLoop_stroops comp1.pot ((10 ^ d) % U64) comp1.shareSched
      comp1.artists tf (groupVotes sorted) 0 0 0 []
      (fun p hp => absurd hp (List.not_mem_nil p))
  by_cases hg1 : 0 < u64sub comp1.pot pr.1 ∧ 0 < sorted.length
  · rw [if_pos hg1]
    set wc := min (sorted.takeWhile (fun p => decide (0 < p.2))).length
      comp1.shareSched.length with hwc
    by_cases hg2 : 0 < sumShare comp1.shareSched 0 wc
    · rw [if_pos hg2]
      exact leftoverFold_stroops comp1.shareSched comp1.artists
        (u64sub comp1.pot pr.1) (sumShare comp1.shareSched 0 wc) ((10 ^ d) % U64)
        sorted tf (List.range wc) (pr.2.1, pr.2.2) hprim
    · rw [if_neg hg2]
      exact hprim
  · rw [if_neg hg1]
    exact hprim

/-- C4 (amended): the whole-unit → minor-unit conversions of `fund_pot` and
`delete_competition` are overflow-checked and fail the call with the
source's `Overflow` errors when `amount * 10^decimals` would wrap, while
`pay_winners` performs the conversion with *unchecked* (wrapping mod
`2^64`) multiplication: every transferred minor-unit amount is the wrapped
product `lumen * 10^decimals mod 2^64` (see the counterexample for a run
where it actually wraps). -/
theorem checked_conversion_fund_and_delete :
    (∀ (comp : Competition) (amount d : Nat) (tfOk : Bool),
      10 ^ d < U64 → U64 ≤ amount * 10 ^ d →
      fundPot comp amount d tfOk = Except.error "Overflow in fund_pot") ∧
    (∀ (store : Store) (compList : List String) (allHist : AllHist) (id : String)
      (d : Nat) (tfOk : Bool) (comp : Competition),
      store id = some comp → 0 < comp.pot → 10 ^ d < U64 →
      U64 ≤ comp.pot * 10 ^ d →
      deleteCompetition store compList allHist id true d tfOk
        = Except.error "Overflow in pot transfer") ∧
    (∀ (reg : Registry) (comp : Competition) (now d : Nat) (tf : Nat → Bool)
      (r : Registry × Competition × List Payment),
      payWinners reg comp now (some d) tf = some r →
      ∀ p ∈ r.2.2, p.stroop = (p.lumen * ((10 ^ d) % U64)) % U64) := by
  refine ⟨?_, ?_, ?_⟩
  · intro comp amount d tfOk hd hov
    unfold fundPot
    rw [if_neg (by omega), if_pos hov]
  · intro store compList allHist id d tfOk comp hst hpot hd hov
    unfold deleteCompetition
    rw [hst]
    dsimp only
    rw [if_pos hpot, if_neg (by omega), if_pos hov]
  · intro reg comp now d tf r hr p hp
    by_cases h1 : comp.voteEnd < now
    · by_cases h2 :
        (if comp.finalized then (reg, comp) else internalFinalize reg comp).2.pot = 0 ∨
        (if comp.finalized then (reg, comp)
          else internalFinalize reg comp).2.winner = none
      · simp only [payWinners, if_pos h1, if_pos h2, Option.some.injEq] at hr
        rw [← hr] at hp
        exact absurd hp (List.not_mem_nil p)
      · simp only [payWinners, if_pos h1, if_neg h2, Option.some.injEq] at hr
        rw [← hr] at hp
        exact distribute_stroops _ _ d tf p hp
    · simp only [payWinners, if_neg h1] at hr
      exact absurd hr (by simp)

theorem checked_conversion_fund_and_delete_witness :
    (10 : Nat) ^ 7 < U64 ∧ U64 ≤ 2 ^ 60 * 10 ^ 7 ∧
    fundPot c4comp (2 ^ 60) 7 true = Except.error "Overflow in fund_pot" := by
  refine ⟨by decide, by decide, ?_⟩
  exact checked_conversion_fund_and_delete.1 c4comp (2 ^ 60) 7 true
    (by decide) (by decide)

theorem remove_artist_removes_registry_entry_witness :
    lastAddr c9comp.artists "A" = some 1 ∧
    ∃ out : Competition × Registry × AllHist,
      removeArtist "c" c9comp c9reg histEmpty true "A" = some out ∧
      out.2.1 1 = none ∧ (∀ b, ¬ b = 1 → out.2.1 b = c9reg b) := by
  exact ⟨rfl, remove_artist_removes_registry_entry "c" c9comp c9reg histEmpty "A" 1 rfl⟩

end BFComp
